import Mathlib

/-!
Verification of the `self_crypto_key` library (Rust) against its
natural-language specification.

The development shallowly embeds the library's pure core:

* `src/crypto.rs` — byte obfuscation, XOR stream cipher, modular inverse,
  per-shard encrypt/decrypt (bytes are `Nat` values `< 256`, all wrapping
  `u8` arithmetic is explicit `% 256`);
* `src/metadata.rs` — the `KeyMetadata` record, `generate`, `validate`,
  `from_bytes` (the JSON codec itself is the external `serde_json` crate and
  is abstracted as a parameter);
* `src/key_store.rs` — `update_bytes`, `read_bytes`, `read_metadata`,
  `write_metadata_to_binary`, `find_section` over an explicit image model
  (`List Nat` of file bytes plus the parsed section table; ELF parsing is the
  external `object` crate and is abstracted as the table).

Rust `Result` is `Except`; a Rust panic (out-of-bounds slice) is the extra
`KSErr.panicked` outcome.  SHA-256 (external `sha2` crate) is a parameter,
constrained to return 32 bytes.
-/

namespace SelfCryptoKey

set_option maxRecDepth 100000

/-! ## Byte-level wrapping arithmetic (`u8` semantics) -/

/-- Model of `u8::wrapping_add`. -/
def add8 (a b : Nat) : Nat := (a + b) % 256

/-- Model of `u8::wrapping_sub` (operands are reduced mod 256 first, as `u8` values). -/
def sub8 (a b : Nat) : Nat := (a % 256 + 256 - b % 256) % 256

/-- Model of `u8::wrapping_mul`. -/
def mul8 (a b : Nat) : Nat := (a * b) % 256

/-- Model of `u8::rotate_left(b, n)`: only `n % 8` matters for an 8-bit value. -/
def rotl8 (b n : Nat) : Nat :=
  ((b <<< (n % 8)) % 256) ||| ((b % 256) >>> (8 - n % 8))

/-- Model of `u8::rotate_right(b, n)`. -/
def rotr8 (b n : Nat) : Nat :=
  ((b % 256) >>> (n % 8)) ||| ((b <<< (8 - n % 8)) % 256)

/-! ## The build-time constants (`build.rs` / `crypto_constants.rs`)

The constants are generated at build time and differ between builds; the
claims quantify over every assignment satisfying the generator's
constraints, so the embedding takes them as a structure parameter. -/

/-- The compile-time constant block emitted into `crypto_constants.rs`.
Tables are total functions on `Nat`, meant to be queried on bytes. -/
structure Consts where
  multiplier : Nat
  base : Nat
  xorMask : Nat
  rotationBits : Nat
  extraRounds : Nat
  table : Nat → Nat
  detable : Nat → Nat
  seedOffsets : Nat → Nat

/-- The constraints `build.rs` guarantees for the generated constants:
odd multiplier and base, rotation in `[1,7]`, extra rounds in `[1,3]`,
`table` a byte-valued S-box with `detable` its left inverse, byte-valued
seed offsets and mask. -/
structure ConstsOK (C : Consts) : Prop where
  mult_lt : C.multiplier < 256
  mult_odd : C.multiplier % 2 = 1
  base_lt : C.base < 256
  mask_lt : C.xorMask < 256
  rot_lo : 1 ≤ C.rotationBits
  rot_hi : C.rotationBits ≤ 7
  rounds_lo : 1 ≤ C.extraRounds
  rounds_hi : C.extraRounds ≤ 3
  table_lt : ∀ b, b < 256 → C.table b < 256
  detable_table : ∀ b, b < 256 → C.detable (C.table b) = b
  seeds_lt : ∀ i, C.seedOffsets i < 256

/-! ## `mod_inverse` (`src/crypto.rs:149-171`)

The Rust loop runs the extended Euclidean algorithm on `i32`; `r`/`new_r`
stay non-negative (they are remainders of `256` and `a`), so they are
modelled as `Nat` while the Bézout coefficient `t` is `Int`.  The loop is
embedded with explicit fuel; `256` steps vastly exceed the worst case for
arguments below `256`. -/

def egcdLoop (fuel : Nat) (t newT : Int) (r newR : Nat) : Int :=
  match fuel with
  | 0 => t
  | fuel + 1 =>
    if newR = 0 then t
    else egcdLoop fuel newT (t - (r / newR : Nat) * newT) newR (r % newR)

/-- Model of `mod_inverse(a)`: extended Euclid on `256` and `a`, one conditional
`+ 256` fix-up, then the `t as u8` truncating cast. -/
def mod_inverse (a : Nat) : Nat :=
  let t := egcdLoop 256 0 1 256 a
  let t := if t < 0 then t + 256 else t
  (t.emod 256).toNat

/-! ## Indexed map: `iter().enumerate().map(...)` -/

/-- Model of `enumerate().map`: apply `f` to each element together with its index,
counting from `i`. -/
def mapIdxFrom (f : Nat → Nat → Nat) : Nat → List Nat → List Nat
  | _, [] => []
  | i, b :: bs => f i b :: mapIdxFrom f (i + 1) bs

/-! ## Obfuscation (`src/crypto.rs:45-144`) -/

/-- One byte of the main obfuscation layer at index `i`:
rotate left, S-box, `*MULT + BASE + seed + i` (wrapping), XOR mask. -/
def obfByte (C : Consts) (seed i b : Nat) : Nat :=
  let byte := rotl8 b C.rotationBits
  let byte := C.table byte
  let byte := add8 (add8 (add8 (mul8 byte C.multiplier) C.base) seed) (i % 256)
  byte ^^^ C.xorMask

/-- One extra round `round`: each byte becomes `b + round*seed + i` (wrapping,
`round` and `i` truncated to `u8` by `as u8` casts). -/
def extraStep (seed round : Nat) (l : List Nat) : List Nat :=
  mapIdxFrom (fun i b => add8 (add8 b (mul8 (round % 256) seed)) (i % 256)) 0 l

/-- Model of `obfuscate(data, seed)`: the per-byte main layer, then
`EXTRA_ROUNDS` extra rounds in increasing order. -/
def obfuscate (C : Consts) (data : List Nat) (seed : Nat) : List Nat :=
  let result := mapIdxFrom (obfByte C seed) 0 data
  (List.range C.extraRounds).foldl (fun acc round => extraStep seed round acc) result

/-- Undo one extra round: `b - i - round*seed` (wrapping). -/
def unExtraStep (seed round : Nat) (l : List Nat) : List Nat :=
  mapIdxFrom (fun i b => sub8 (sub8 b (i % 256)) (mul8 (round % 256) seed)) 0 l

/-- One byte of the inverse main layer: XOR mask, `- i - seed - BASE`,
multiply by `mod_inverse(MULT)`, inverse S-box, rotate right. -/
def deobfByte (C : Consts) (seed i b : Nat) : Nat :=
  let byte := b ^^^ C.xorMask
  let byte := sub8 (sub8 (sub8 byte (i % 256)) seed) C.base
  let byte := mul8 byte (mod_inverse C.multiplier)
  let byte := C.detable byte
  rotr8 byte C.rotationBits

/-- Model of `deobfuscate(data, seed)`: the extra rounds undone in decreasing order,
then the inverse main layer per byte. -/
def deobfuscate (C : Consts) (data : List Nat) (seed : Nat) : List Nat :=
  let result :=
    (List.range C.extraRounds).reverse.foldl
      (fun acc round => unExtraStep seed round acc) data
  mapIdxFrom (deobfByte C seed) 0 result

/-! ## XOR stream and per-shard encryption (`src/crypto.rs:22-27,224-251`) -/

/-- Model of `xor_cipher(data, key)`: `data[i] ^ key[i % key.len()]`.  The Rust code
panics on an empty key and non-empty data; callers guarantee non-emptiness,
which the theorems take as a hypothesis. -/
def xor_cipher (data key : List Nat) : List Nat :=
  mapIdxFrom (fun i b => b ^^^ key.getD (i % key.length) 0) 0 data

/-- Model of `encrypt_shard`: obfuscate, then XOR with the derived key. -/
def encrypt_shard (C : Consts) (data key : List Nat) (seed : Nat) : List Nat :=
  xor_cipher (obfuscate C data seed) key

/-- Model of `decrypt_shard`: XOR with the derived key, then deobfuscate. -/
def decrypt_shard (C : Consts) (data key : List Nat) (seed : Nat) : List Nat :=
  deobfuscate C (xor_cipher data key) seed

/-- Forward extra rounds, as the `for round in 0..n` loop. -/
def extraFold (seed n : Nat) (l : List Nat) : List Nat :=
  (List.range n).foldl (fun acc round => extraStep seed round acc) l

/-- Backward extra rounds, as the `for round in (0..n).rev()` loop. -/
def unExtraFold (seed n : Nat) (l : List Nat) : List Nat :=
  (List.range n).reverse.foldl (fun acc round => unExtraStep seed round acc) l

/-! ## Errors (`src/error.rs`)

One constructor per `Error` variant actually distinguished by the claims
(payload strings are dropped), plus `panicked` for a Rust panic — an
out-of-bounds slice index — which is not an `Error` value at all. -/

inductive KSErr where
  | ioErr : KSErr
  | parseErr : KSErr
  | cryptoErr : KSErr
  | configErr : KSErr
  | sectionNotFound (name : String) : KSErr
  | sizeMismatch (expected actual : Nat) : KSErr
  | panicked : KSErr
  deriving DecidableEq, Repr

/-! ## Metadata (`src/metadata.rs`) -/

structure KeyMetadata where
  num_shards : Nat
  shard_sizes : List Nat
  shard_names : List String
  version : Nat
  deriving DecidableEq, Repr

/-- Model of `KeyMetadata::SHARD_NAMES`: the eight canonical slot section names. -/
def SHARD_NAMES : List String :=
  [".key_data_00", ".key_data_01", ".key_data_02", ".key_data_03",
   ".key_data_04", ".key_data_05", ".key_data_06", ".key_data_07"]

/-- Model of `KeyMetadata::SHARD_SIZE`. -/
def SHARD_SIZE : Nat := 1024

/-- Model of `KeyMetadata::VERSION`. -/
def METADATA_VERSION : Nat := 1

/-- Model of `KeyMetadata::generate()`: the two PRNG draws are parameters —
`numShards` models `rng.gen_range(4..=8)` and `indices` models the
Fisher–Yates-shuffled list `(0..8).collect::<Vec<_>>()`; the record is then
built exactly as in the source: the first `numShards` shuffled indices name
the slots, all sizes are `SHARD_SIZE`, version is `VERSION`. -/
def KeyMetadata.generate (numShards : Nat) (indices : List Nat) : KeyMetadata :=
  { num_shards := numShards
    shard_sizes := List.replicate numShards SHARD_SIZE
    shard_names := (indices.take numShards).map (fun i => SHARD_NAMES.getD i "")
    version := METADATA_VERSION }

/-- Model of `KeyMetadata::total_capacity()`. -/
def KeyMetadata.total_capacity (md : KeyMetadata) : Nat := md.shard_sizes.sum

/-- Model of `KeyMetadata::validate()`. -/
def KeyMetadata.validate (md : KeyMetadata) : Except KSErr Unit :=
  if md.num_shards = 0 then .error .configErr
  else if md.num_shards > 8 then .error .configErr
  else if md.shard_sizes.length ≠ md.num_shards then .error .configErr
  else if md.shard_names.length ≠ md.num_shards then .error .configErr
  else .ok ()

/-- Model of `iter().rposition(...)` specialised to equality with a byte. -/
def rposition (l : List Nat) (b : Nat) : Option Nat :=
  match l.reverse.findIdx? (· = b) with
  | none => none
  | some k => some (l.length - 1 - k)

/-- Model of `KeyMetadata::from_bytes(data)`: find the first `{` (byte 123) and the
last `}` (byte 125), reject an inverted range, and hand the enclosed bytes
to the JSON parser.  The parser itself is `serde_json` (external), so it is
a parameter; a parse failure maps to `Error::Parse` via the `From` impl in
`src/error.rs`. -/
def KeyMetadata.from_bytes (parseJson : List Nat → Option KeyMetadata)
    (data : List Nat) : Except KSErr KeyMetadata :=
  match data.findIdx? (· = 123) with
  | none => .error .parseErr
  | some jsonStart =>
    match rposition data 125 with
    | none => .error .parseErr
    | some jsonEnd =>
      if jsonStart > jsonEnd then .error .parseErr
      else
        match parseJson ((data.drop jsonStart).take (jsonEnd + 1 - jsonStart)) with
        | some md => .ok md
        | none => .error .parseErr

/-! ## The image model and the KeyStore engine (`src/key_store.rs`)

The on-disk executable is its list of file bytes together with the parsed
ELF section table (name, file offset, file size per section).  ELF parsing
is performed by the external `object` crate; the engine only consumes the
table, so the table is the model of the parsed image.  The byte-rewriting
steps of the engine leave the table untouched (they only write inside
reserved data sections). -/

/-- Parsed section table: `(name, file_offset, file_size)` per section. -/
abbrev SecTab := List (String × Nat × Nat)

/-- Rust slice `l[a..b]`: `none` models the panic when `a > b` or
`b > l.len()`. -/
def slice? (l : List Nat) (a b : Nat) : Option (List Nat) :=
  if a ≤ b ∧ b ≤ l.length then some ((l.drop a).take (b - a)) else none

/-- Model of `l[off..off + repl.len()].copy_from_slice(&repl)` as a pure update. -/
def writeBytes (l : List Nat) (off : Nat) (repl : List Nat) : List Nat :=
  l.take off ++ repl ++ l.drop (off + repl.length)

/-- The external pure dependencies of the engine: the build constants, the
`sha2` SHA-256 digest, and the `serde_json` codec for `KeyMetadata`. -/
structure Env where
  consts : Consts
  sha : List Nat → List Nat
  toJson : KeyMetadata → List Nat
  parseJson : List Nat → Option KeyMetadata

/-- What the real dependencies guarantee: valid build constants, and a
32-byte byte-valued digest. -/
structure EnvOK (env : Env) : Prop where
  constsOK : ConstsOK env.consts
  sha_length : ∀ l, (env.sha l).length = 32
  sha_lt : ∀ l, ∀ b ∈ env.sha l, b < 256

/-- Model of `KeyStore::find_section`: first section with the given name, else
`SectionNotFound`. -/
def find_section : SecTab → String → Except KSErr (Nat × Nat)
  | [], name => .error (.sectionNotFound name)
  | (n, off, sz) :: rest, name =>
    if n = name then .ok (off, sz) else find_section rest name

/-- Model of `derive_key_from_section` (`src/crypto.rs:184-209`): walk the sections;
on the first name match whose data is available, return the first
`min(key_len, 32)` bytes of its SHA-256; a match whose data is unavailable
is skipped (the `if let Ok(data)` in the source falls through). -/
def derive_key_from_section (env : Env) (data : List Nat) :
    SecTab → String → Nat → Except KSErr (List Nat)
  | [], name, _ => .error (.sectionNotFound name)
  | (n, off, sz) :: rest, name, keyLen =>
    if n = name then
      match slice? data off (off + sz) with
      | some secData => .ok ((env.sha secData).take (min keyLen 32))
      | none => derive_key_from_section env data rest name keyLen
    else derive_key_from_section env data rest name keyLen

/-- Model of `KeyStore::read_metadata`: find `.key_meta`, reject a section smaller
than 8 bytes, parse the JSON after the 8-byte length prefix. -/
def read_metadata (env : Env) (tab : SecTab) (data : List Nat) :
    Except KSErr KeyMetadata :=
  match find_section tab ".key_meta" with
  | .error e => .error e
  | .ok (offset, size) =>
    if size < 8 then .error .configErr
    else
      match slice? data (offset + 8) (offset + size) with
      | none => .error .panicked
      | some metadataBytes => KeyMetadata.from_bytes env.parseJson metadataBytes

/-- Model of `KeyStore::write_metadata_to_binary`: splice the JSON serialization into
`.key_meta` at offset 8, rejecting a JSON body that does not fit. -/
def write_metadata_to_binary (env : Env) (tab : SecTab) (md : KeyMetadata)
    (data : List Nat) : Except KSErr (List Nat) :=
  match find_section tab ".key_meta" with
  | .error e => .error e
  | .ok (metaOffset, metaSize) =>
    let jsonBytes := env.toJson md
    if jsonBytes.length + 8 > metaSize then .error .configErr
    else if metaOffset + 8 + jsonBytes.length ≤ data.length then
      .ok (writeBytes data (metaOffset + 8) jsonBytes)
    else .error .panicked

/-- Model of `u64::to_le_bytes` of a length. -/
def le64 (n : Nat) : List Nat := (List.range 8).map (fun k => n / 256 ^ k % 256)

/-- Model of `u64::from_le_bytes` of an 8-byte list. -/
def leToNat (l : List Nat) : Nat := l.foldr (fun b acc => b + 256 * acc) 0

/-- The per-shard loop of `update_bytes` (`src/key_store.rs:107-136`):
slice the padded secret, locate the slot, check its size, derive the key
from `.text`, encrypt with seed `SHARD_SEED_OFFSETS[i % 8] + i`, splice the
ciphertext into the image. -/
def updateShards (env : Env) (tab : SecTab) (md : KeyMetadata) (padded : List Nat) :
    Nat → Nat → List Nat → List Nat → Except KSErr (List Nat)
  | _, _, data, [] => .ok data
  | i, offsetInKey, data, shardSize :: rest =>
    if offsetInKey + shardSize ≤ padded.length then
      let shardData := (padded.drop offsetInKey).take shardSize
      match md.shard_names[i]? with
      | none => .error .panicked
      | some sectionName =>
        match find_section tab sectionName with
        | .error e => .error e
        | .ok (sectionOffset, sectionSize) =>
          if sectionSize < shardSize then .error (.sizeMismatch shardSize sectionSize)
          else
            match derive_key_from_section env data tab ".text" shardSize with
            | .error e => .error e
            | .ok deriveKey =>
              let shardSeed := env.consts.seedOffsets (i % 8)
              let encrypted :=
                encrypt_shard env.consts shardData deriveKey (add8 shardSeed (i % 256))
              if sectionOffset + shardSize ≤ data.length then
                updateShards env tab md padded (i + 1) (offsetInKey + shardSize)
                  (writeBytes data sectionOffset encrypted) rest
              else .error .panicked
    else .error .panicked

/-- Model of `KeyStore::update_bytes` (`src/key_store.rs:80-147`): initialize the
metadata JSON if absent, enforce the capacity bound, zero-pad, encrypt every
shard into the image, write the length prefix, and return the bytes handed
to `atomic_write`. -/
def update_bytes (env : Env) (tab : SecTab) (md : KeyMetadata) (data0 : List Nat)
    (newKey : List Nat) : Except KSErr (List Nat) :=
  let needsInit := match read_metadata env tab data0 with
    | .ok _ => false
    | .error _ => true
  let dataInit : Except KSErr (List Nat) :=
    if needsInit then write_metadata_to_binary env tab md data0 else .ok data0
  match dataInit with
  | .error e => .error e
  | .ok data1 =>
    let totalCapacity := md.total_capacity
    if newKey.length > totalCapacity then .error .configErr
    else
      let padded := newKey ++ List.replicate (totalCapacity - newKey.length) 0
      match updateShards env tab md padded 0 0 data1 md.shard_sizes with
      | .error e => .error e
      | .ok data2 =>
        match find_section tab ".key_meta" with
        | .error e => .error e
        | .ok (metaOffset, _) =>
          if metaOffset + 8 ≤ data2.length then
            .ok (writeBytes data2 metaOffset (le64 newKey.length))
          else .error .panicked

/-- The disk-level semantics of one `update_bytes` call: the only mutation of
the executable is the final `atomic_write` (temp file + rename), so the
on-disk image is replaced exactly when `update_bytes` succeeds and is left
unchanged on any failure. -/
def runUpdate (env : Env) (tab : SecTab) (md : KeyMetadata) (disk : List Nat)
    (newKey : List Nat) : List Nat :=
  match update_bytes env tab md disk newKey with
  | .ok newData => newData
  | .error _ => disk

/-- The length-prefix read at the top of `read_bytes`
(`src/key_store.rs:193-204`): slice the 8 bytes at the `.key_meta` offset
with no size check. -/
def readLenHeader (tab : SecTab) (data : List Nat) : Except KSErr (List Nat) :=
  match find_section tab ".key_meta" with
  | .error e => .error e
  | .ok (metaOffset, _) =>
    match slice? data metaOffset (metaOffset + 8) with
    | some bytes => .ok bytes
    | none => .error .panicked

/-- The per-shard loop of `read_bytes` (`src/key_store.rs:223-258`): stop
once enough bytes were collected, otherwise decrypt the slot and take what
is still needed. -/
def readShards (env : Env) (tab : SecTab) (md : KeyMetadata) (data : List Nat) :
    Nat → Nat → List Nat → List Nat → Except KSErr (List Nat)
  | _, _, acc, [] => .ok acc
  | i, bytesNeeded, acc, shardSize :: rest =>
    if bytesNeeded = 0 then .ok acc
    else
      match md.shard_names[i]? with
      | none => .error .panicked
      | some sectionName =>
        match find_section tab sectionName with
        | .error e => .error e
        | .ok (sectionOffset, sectionSize) =>
          if sectionSize < shardSize then .error (.sizeMismatch shardSize sectionSize)
          else
            match slice? data sectionOffset (sectionOffset + shardSize) with
            | none => .error .panicked
            | some encryptedData =>
              match derive_key_from_section env data tab ".text" shardSize with
              | .error e => .error e
              | .ok deriveKey =>
                let shardSeed := env.consts.seedOffsets (i % 8)
                let decrypted :=
                  decrypt_shard env.consts encryptedData deriveKey
                    (add8 shardSeed (i % 256))
                let bytesToTake := min bytesNeeded decrypted.length
                readShards env tab md data (i + 1) (bytesNeeded - bytesToTake)
                  (acc ++ decrypted.take bytesToTake) rest

/-- Model of `KeyStore::read_bytes` (`src/key_store.rs:189-261`). -/
def read_bytes (env : Env) (tab : SecTab) (md : KeyMetadata) (data : List Nat) :
    Except KSErr (List Nat) :=
  match readLenHeader tab data with
  | .error e => .error e
  | .ok lenBytes =>
    let actualKeyLen := leToNat lenBytes
    if actualKeyLen = 0 then .ok []
    else if actualKeyLen > md.total_capacity then .error .configErr
    else readShards env tab md data 0 actualKeyLen [] md.shard_sizes

/-- Model of `KeyStore::new` (`src/key_store.rs:41-58`): load the metadata from the
image, fall back to a freshly generated record (`generated` stands for the
random draw), validate, and return the held metadata. -/
def KeyStore.new (env : Env) (tab : SecTab) (data : List Nat)
    (generated : KeyMetadata) : Except KSErr KeyMetadata :=
  let md := match read_metadata env tab data with
    | .ok m => m
    | .error _ => generated
  match md.validate with
  | .error e => .error e
  | .ok _ => .ok md

/-- Model of `KeyStore::capacity`. -/
def KeyStore.capacity (md : KeyMetadata) : Nat := md.total_capacity

/-! ## Lemmas about slices and in-place writes -/

/-- The contiguous slice `l[off .. off+len)`. -/
def sliceL (l : List Nat) (off len : Nat) : List Nat := (l.drop off).take len

/-! ## Partial sums of the shard sizes -/

/-- Sum of the first `k` shard sizes: the `offset_in_key` value at loop
iteration `k`. -/
def psum (sizes : List Nat) (k : Nat) : Nat := (sizes.take k).sum

/-! ## A metadata layout that matches the on-disk image

`GoodLayout` is the formal reading of "the handle's metadata layout matches
the on-disk ELF image": the `.text`, `.key_meta` and named slot sections
exist, their file ranges lie inside the image and do not overlap (as section
file ranges of a well-formed ELF do), each slot is at least its declared
shard size, `.key_meta` has at least the 8 prefix bytes and room for the
JSON body, and the declared capacity fits in a `u64`. -/

structure GoodLayout (env : Env) (tab : SecTab) (md : KeyMetadata) (dataLen : Nat)
    (textOff textSz metaOff metaSz : Nat) (slotOff slotSz : Nat → Nat) : Prop where
  names_len : md.shard_names.length = md.shard_sizes.length
  text_find : find_section tab ".text" = .ok (textOff, textSz)
  text_inb : textOff + textSz ≤ dataLen
  meta_find : find_section tab ".key_meta" = .ok (metaOff, metaSz)
  meta_inb : metaOff + metaSz ≤ dataLen
  meta_min : 8 ≤ metaSz
  slot_find : ∀ i, i < md.shard_sizes.length →
    find_section tab (md.shard_names.getD i "") = .ok (slotOff i, slotSz i)
  slot_size : ∀ i, i < md.shard_sizes.length → md.shard_sizes.getD i 0 ≤ slotSz i
  slot_inb : ∀ i, i < md.shard_sizes.length →
    slotOff i + md.shard_sizes.getD i 0 ≤ dataLen
  slot_disj : ∀ i, i < md.shard_sizes.length → ∀ j, j < md.shard_sizes.length →
    i ≠ j →
    slotOff i + md.shard_sizes.getD i 0 ≤ slotOff j ∨
      slotOff j + md.shard_sizes.getD j 0 ≤ slotOff i
  slot_text : ∀ i, i < md.shard_sizes.length →
    slotOff i + md.shard_sizes.getD i 0 ≤ textOff ∨ textOff + textSz ≤ slotOff i
  slot_meta : ∀ i, i < md.shard_sizes.length →
    slotOff i + md.shard_sizes.getD i 0 ≤ metaOff ∨ metaOff + metaSz ≤ slotOff i
  text_meta : textOff + textSz ≤ metaOff ∨ metaOff + metaSz ≤ textOff
  cap_bound : md.total_capacity < 2 ^ 64
  json_fits : (env.toJson md).length + 8 ≤ metaSz

/-- The key derived for a shard of size `sz` when the `.text` bytes are
`tb`. -/
def shardKey (env : Env) (tb : List Nat) (sz : Nat) : List Nat :=
  (env.sha tb).take (min sz 32)

/-- The seed used for shard `i`: `SHARD_SEED_OFFSETS[i % 8] + i` (wrapping). -/
def shardSeed (env : Env) (i : Nat) : Nat :=
  add8 (env.consts.seedOffsets (i % 8)) (i % 256)

/-- The ciphertext `update_bytes` stores in slot `j`. -/
def shardCipher (env : Env) (md : KeyMetadata) (padded tb : List Nat) (j : Nat) :
    List Nat :=
  encrypt_shard env.consts
    (sliceL padded (psum md.shard_sizes j) (md.shard_sizes.getD j 0))
    (shardKey env tb (md.shard_sizes.getD j 0)) (shardSeed env j)

/-! ## Concrete instances used by the witnesses -/

instance instDecEqExcept {ε α : Type} [DecidableEq ε] [DecidableEq α] :
    DecidableEq (Except ε α) := fun x y =>
  match x, y with
  | .ok a, .ok b =>
    if h : a = b then .isTrue (by rw [h])
    else .isFalse (by intro hc; cases hc; exact h rfl)
  | .error a, .error b =>
    if h : a = b then .isTrue (by rw [h])
    else .isFalse (by intro hc; cases hc; exact h rfl)
  | .ok _, .error _ => .isFalse (by intro hc; cases hc)
  | .error _, .ok _ => .isFalse (by intro hc; cases hc)

/-- A concrete constant assignment satisfying every build constraint
(identity S-box, multiplier 1). -/
def constsTriv : Consts :=
  { multiplier := 1, base := 1, xorMask := 0, rotationBits := 1,
    extraRounds := 1, table := fun b => b, detable := fun b => b,
    seedOffsets := fun _ => 0 }

/-- A concrete environment: trivial constants, an all-zero 32-byte digest,
and a `{}` JSON codec. -/
def envTriv : Env :=
  { consts := constsTriv, sha := fun _ => List.replicate 32 0,
    toJson := fun _ => [123, 125], parseJson := fun _ => none }

/-- A one-shard metadata record for concrete runs. -/
def mdW : KeyMetadata := ⟨1, [4], [".key_data_00"], 1⟩

/-- A section table with `.text` at `[0,4)`, the slot at `[4,8)` and
`.key_meta` at `[8,20)`. -/
def tabW : SecTab := [(".text", 0, 4), (".key_data_00", 4, 4), (".key_meta", 8, 12)]

/-- A 20-byte all-zero image for `tabW`. -/
def dataW : List Nat := List.replicate 20 0

/-- An environment whose JSON parser recognizes the `{}` body as `mdW`, so
images carrying it count as initialized. -/
def envW2 : Env :=
  { consts := constsTriv, sha := fun _ => List.replicate 32 0,
    toJson := fun _ => [123, 125],
    parseJson := fun bs => if bs = [123, 125] then some mdW else none }

/-- An initialized 20-byte image for `tabW`: the `.key_meta` body at
offset 16 holds the JSON `{}`. -/
def dataW2 : List Nat := List.replicate 16 0 ++ [123, 125] ++ List.replicate 2 0

/-! ## C9 — capacity bounds -/

/-- A metadata record that passes `validate()` but has total capacity 1. -/
def mdBad : KeyMetadata := ⟨1, [1], [".key_data_00"], 1⟩

/-- The ASCII bytes of the JSON serialization of `mdBad`. -/
def jsonBad : List Nat :=
  ("\x7b\"num_shards\":1,\"shard_sizes\":[1],\"shard_names\":[\".key_data_00\"],\"version\":1\x7d").toList.map
    Char.toNat

/-- An environment whose JSON parser accepts exactly `jsonBad` (as
`serde_json` would). -/
def envBad : Env :=
  { consts := constsTriv, sha := fun _ => List.replicate 32 0,
    toJson := fun _ => jsonBad,
    parseJson := fun bs => if bs = jsonBad then some mdBad else none }

/-- A section table whose `.key_meta` holds the length prefix plus
`jsonBad`. -/
def tabBad : SecTab := [(".key_meta", 0, 8 + jsonBad.length)]

/-- The image bytes for `tabBad`: 8 zero prefix bytes, then `jsonBad`. -/
def dataBad : List Nat := List.replicate 8 0 ++ jsonBad

/-! ## C10 — the unchecked 8-byte length-prefix read -/

/-- A table whose `.key_meta` file range has size 4 (< 8) and ends at the
image end. -/
def tabShort : SecTab := [(".key_meta", 6, 4)]

/-- A 10-byte image: `.key_meta` occupies the last 4 bytes. -/
def dataShort : List Nat := List.replicate 10 0

/-! ## Lemmas about byte arithmetic -/

lemma add8_lt (a b : Nat) : add8 a b < 256 := Nat.mod_lt _ (by omega)

lemma sub8_lt (a b : Nat) : sub8 a b < 256 := Nat.mod_lt _ (by omega)

lemma mul8_lt (a b : Nat) : mul8 a b < 256 := Nat.mod_lt _ (by omega)

lemma shiftRight_le_self (a k : Nat) : a >>> k ≤ a := by
  rw [Nat.shiftRight_eq_div_pow]; exact Nat.div_le_self _ _

lemma or8_lt {a b : Nat} (ha : a < 256) (hb : b < 256) : a ||| b < 256 := by
  have h256 : (256 : Nat) = 2 ^ 8 := by norm_num
  rw [h256] at ha hb ⊢
  exact Nat.or_lt_two_pow ha hb

lemma rotl8_lt (b n : Nat) : rotl8 b n < 256 := by
  unfold rotl8
  exact or8_lt (Nat.mod_lt _ (by omega))
    (lt_of_le_of_lt (shiftRight_le_self _ _) (Nat.mod_lt _ (by omega)))

lemma rotr8_lt (b n : Nat) : rotr8 b n < 256 := by
  unfold rotr8
  exact or8_lt
    (lt_of_le_of_lt (shiftRight_le_self _ _) (Nat.mod_lt _ (by omega)))
    (Nat.mod_lt _ (by omega))

lemma xor8_lt {a b : Nat} (ha : a < 256) (hb : b < 256) : a ^^^ b < 256 := by
  have h256 : (256 : Nat) = 2 ^ 8 := by norm_num
  rw [h256] at ha hb ⊢
  exact Nat.xor_lt_two_pow ha hb

lemma xor8_cancel (a m : Nat) : (a ^^^ m) ^^^ m = a := by
  rw [Nat.xor_assoc, Nat.xor_self, Nat.xor_zero]

lemma sub8_add8 (x y : Nat) (hx : x < 256) : sub8 (add8 x y) y = x := by
  unfold add8 sub8
  omega

/-- Exhaustive check that `rotate_right` undoes `rotate_left` on bytes. -/
lemma rot_inv_lt : ∀ b, b < 256 → ∀ m, m < 8 → rotr8 (rotl8 b m) m = b := by decide

lemma rotl8_mod (b n : Nat) : rotl8 b (n % 8) = rotl8 b n := by
  unfold rotl8
  rw [Nat.mod_mod_of_dvd _ dvd_rfl]

lemma rotr8_mod (b n : Nat) : rotr8 b (n % 8) = rotr8 b n := by
  unfold rotr8
  rw [Nat.mod_mod_of_dvd _ dvd_rfl]

lemma rot_inverse (b n : Nat) (hb : b < 256) : rotr8 (rotl8 b n) n = b := by
  rw [← rotl8_mod, ← rotr8_mod]
  exact rot_inv_lt b hb (n % 8) (Nat.mod_lt _ (by omega))

/-- Exhaustive correctness of `mod_inverse` on all odd bytes: the product is
`1 (mod 256)` and the result is again an odd byte. -/
lemma mod_inverse_correct : ∀ m, m < 256 → m % 2 = 1 →
    (m * mod_inverse m) % 256 = 1 ∧ mod_inverse m < 256 ∧ mod_inverse m % 2 = 1 := by
  decide

lemma mul8_inv (M x : Nat) (hx : x < 256) (h : (M * mod_inverse M) % 256 = 1) :
    mul8 (mul8 x M) (mod_inverse M) = x := by
  unfold mul8
  rw [Nat.mod_mul_mod, mul_assoc, Nat.mul_mod, h, mul_one, Nat.mod_mod_of_dvd _ dvd_rfl,
    Nat.mod_eq_of_lt hx]

/-! ## Lemmas about `mapIdxFrom` -/

lemma mapIdxFrom_length (f : Nat → Nat → Nat) (i : Nat) (l : List Nat) :
    (mapIdxFrom f i l).length = l.length := by
  induction l generalizing i with
  | nil => rfl
  | cons b bs ih => simp [mapIdxFrom, ih]

lemma mapIdxFrom_comp (f g : Nat → Nat → Nat) (i : Nat) (l : List Nat) :
    mapIdxFrom g i (mapIdxFrom f i l) = mapIdxFrom (fun j b => g j (f j b)) i l := by
  induction l generalizing i with
  | nil => rfl
  | cons b bs ih => simp [mapIdxFrom, ih]

lemma mapIdxFrom_id (f : Nat → Nat → Nat) (i : Nat) (l : List Nat)
    (h : ∀ j b, f j b = b) : mapIdxFrom f i l = l := by
  induction l generalizing i with
  | nil => rfl
  | cons b bs ih => simp [mapIdxFrom, h, ih]

lemma mapIdxFrom_id_of_lt (f : Nat → Nat → Nat) (i : Nat) (l : List Nat)
    (hl : ∀ b ∈ l, b < 256) (h : ∀ j b, b < 256 → f j b = b) :
    mapIdxFrom f i l = l := by
  induction l generalizing i with
  | nil => rfl
  | cons b bs ih =>
    have hb : b < 256 := hl b (List.mem_cons_self b bs)
    have hbs : ∀ x ∈ bs, x < 256 := fun x hx => hl x (List.mem_cons_of_mem b hx)
    simp only [mapIdxFrom, h i b hb]
    rw [ih (i + 1) hbs]

lemma mapIdxFrom_mem_lt (f : Nat → Nat → Nat) (i : Nat) (l : List Nat)
    (h : ∀ j b, f j b < 256) : ∀ x ∈ mapIdxFrom f i l, x < 256 := by
  induction l generalizing i with
  | nil => simp [mapIdxFrom]
  | cons b bs ih =>
    intro x hx
    rcases (by simpa [mapIdxFrom] using hx : x = f i b ∨ x ∈ mapIdxFrom f (i + 1) bs) with
      h1 | h1
    · subst h1; exact h i b
    · exact ih (i + 1) x h1

/-! ## Round-trip of the obfuscation pipeline -/

lemma obfByte_lt (C : Consts) (hC : ConstsOK C) (seed i b : Nat) :
    obfByte C seed i b < 256 :=
  xor8_lt (add8_lt _ _) hC.mask_lt

lemma deobf_obf_byte (C : Consts) (hC : ConstsOK C) (seed i b : Nat) (hb : b < 256) :
    deobfByte C seed i (obfByte C seed i b) = b := by
  simp only [obfByte, deobfByte]
  have hrot : rotl8 b C.rotationBits < 256 := rotl8_lt _ _
  have hT : C.table (rotl8 b C.rotationBits) < 256 := hC.table_lt _ hrot
  rw [xor8_cancel, sub8_add8 _ _ (add8_lt _ _), sub8_add8 _ _ (add8_lt _ _),
    sub8_add8 _ _ (mul8_lt _ _),
    mul8_inv C.multiplier _ hT (mod_inverse_correct _ hC.mult_lt hC.mult_odd).1,
    hC.detable_table _ hrot]
  exact rot_inverse b C.rotationBits hb

lemma extraStep_mem_lt (seed round : Nat) (l : List Nat) :
    ∀ x ∈ extraStep seed round l, x < 256 :=
  mapIdxFrom_mem_lt _ _ _ (fun _ _ => add8_lt _ _)

lemma extraStep_length (seed round : Nat) (l : List Nat) :
    (extraStep seed round l).length = l.length := mapIdxFrom_length _ _ _

lemma unExtraStep_length (seed round : Nat) (l : List Nat) :
    (unExtraStep seed round l).length = l.length := mapIdxFrom_length _ _ _

lemma unExtra_extra (seed round : Nat) (l : List Nat) (hl : ∀ b ∈ l, b < 256) :
    unExtraStep seed round (extraStep seed round l) = l := by
  unfold unExtraStep extraStep
  rw [mapIdxFrom_comp]
  refine mapIdxFrom_id_of_lt _ _ _ hl ?_
  intro j b hb
  rw [sub8_add8 _ _ (add8_lt _ _), sub8_add8 _ _ hb]

lemma extraFold_zero (seed : Nat) (l : List Nat) : extraFold seed 0 l = l := rfl

lemma unExtraFold_zero (seed : Nat) (l : List Nat) : unExtraFold seed 0 l = l := rfl

lemma extraFold_succ (seed n : Nat) (l : List Nat) :
    extraFold seed (n + 1) l = extraStep seed n (extraFold seed n l) := by
  simp [extraFold, List.range_succ]

lemma unExtraFold_succ (seed n : Nat) (l : List Nat) :
    unExtraFold seed (n + 1) l = unExtraFold seed n (unExtraStep seed n l) := by
  simp [unExtraFold, List.range_succ]

lemma extraFold_mem_lt (seed : Nat) :
    ∀ n (l : List Nat), (∀ b ∈ l, b < 256) → ∀ x ∈ extraFold seed n l, x < 256 := by
  intro n
  induction n with
  | zero => intro l hl; simpa [extraFold_zero] using hl
  | succ n ih =>
    intro l hl
    rw [extraFold_succ]
    exact extraStep_mem_lt _ _ _

lemma extraFold_length (seed : Nat) : ∀ n (l : List Nat),
    (extraFold seed n l).length = l.length := by
  intro n
  induction n with
  | zero => intro l; rw [extraFold_zero]
  | succ n ih =>
    intro l
    rw [extraFold_succ, extraStep_length]
    exact ih l

lemma unExtra_extraFold (seed : Nat) : ∀ n (l : List Nat), (∀ b ∈ l, b < 256) →
    unExtraFold seed n (extraFold seed n l) = l := by
  intro n
  induction n with
  | zero => intro l _; rw [extraFold_zero, unExtraFold_zero]
  | succ n ih =>
    intro l hl
    rw [extraFold_succ, unExtraFold_succ,
      unExtra_extra seed n _ (extraFold_mem_lt seed n l hl)]
    exact ih l hl

lemma obfuscate_eq_fold (C : Consts) (data : List Nat) (seed : Nat) :
    obfuscate C data seed = extraFold seed C.extraRounds (mapIdxFrom (obfByte C seed) 0 data) :=
  rfl

lemma obfuscate_length (C : Consts) (data : List Nat) (seed : Nat) :
    (obfuscate C data seed).length = data.length := by
  rw [obfuscate_eq_fold, extraFold_length, mapIdxFrom_length]

lemma obfuscate_mem_lt (C : Consts) (hC : ConstsOK C) (data : List Nat) (seed : Nat) :
    ∀ x ∈ obfuscate C data seed, x < 256 := by
  rw [obfuscate_eq_fold]
  exact extraFold_mem_lt seed _ _ (mapIdxFrom_mem_lt _ _ _ (fun j b => obfByte_lt C hC seed j b))

/-- Core round trip of the obfuscation pipeline: `deobfuscate` undoes
`obfuscate` on any byte buffer, for any constants meeting the build
constraints. -/
lemma deobf_obf (C : Consts) (hC : ConstsOK C) (d : List Nat) (s : Nat)
    (hd : ∀ b ∈ d, b < 256) : deobfuscate C (obfuscate C d s) s = d := by
  show mapIdxFrom (deobfByte C s) 0
      (unExtraFold s C.extraRounds (extraFold s C.extraRounds (mapIdxFrom (obfByte C s) 0 d))) = d
  rw [unExtra_extraFold s C.extraRounds _
      (mapIdxFrom_mem_lt _ _ _ (fun j b => obfByte_lt C hC s j b)),
    mapIdxFrom_comp]
  exact mapIdxFrom_id_of_lt _ _ _ hd (fun j b hb => deobf_obf_byte C hC s j b hb)

/-! ## XOR stream lemmas -/

lemma xor_cipher_length (data key : List Nat) :
    (xor_cipher data key).length = data.length := mapIdxFrom_length _ _ _

lemma xor_xor_cancel (data key : List Nat) :
    xor_cipher (xor_cipher data key) key = data := by
  unfold xor_cipher
  rw [mapIdxFrom_comp]
  exact mapIdxFrom_id _ _ _ (fun j b => xor8_cancel _ _)

lemma decrypt_encrypt (C : Consts) (hC : ConstsOK C) (d key : List Nat) (s : Nat)
    (hd : ∀ b ∈ d, b < 256) :
    decrypt_shard C (encrypt_shard C d key s) key s = d := by
  unfold encrypt_shard decrypt_shard
  rw [xor_xor_cancel, deobf_obf C hC d s hd]

lemma encrypt_shard_length (C : Consts) (d key : List Nat) (s : Nat) :
    (encrypt_shard C d key s).length = d.length := by
  unfold encrypt_shard
  rw [xor_cipher_length, obfuscate_length]

lemma deobfuscate_length (C : Consts) (d : List Nat) (s : Nat) :
    (deobfuscate C d s).length = d.length := by
  show (mapIdxFrom (deobfByte C s) 0 ((List.range C.extraRounds).reverse.foldl
      (fun acc round => unExtraStep s round acc) d)).length = d.length
  rw [mapIdxFrom_length]
  generalize (List.range C.extraRounds).reverse = rs
  induction rs generalizing d with
  | nil => rfl
  | cons r rs ih => simp only [List.foldl_cons]; rw [ih, unExtraStep_length]

lemma decrypt_shard_length (C : Consts) (d key : List Nat) (s : Nat) :
    (decrypt_shard C d key s).length = d.length := by
  unfold decrypt_shard
  rw [deobfuscate_length, xor_cipher_length]

lemma sliceL_getElem? (l : List Nat) (off len j : Nat) :
    (sliceL l off len)[j]? = if j < len then l[off + j]? else none := by
  unfold sliceL
  by_cases h : j < len
  · rw [List.getElem?_take_of_lt h, List.getElem?_drop, if_pos h]
  · rw [if_neg h]
    apply List.getElem?_eq_none
    have := (l.drop off).length_take len
    omega

lemma sliceL_length (l : List Nat) (off len : Nat) (h : off + len ≤ l.length) :
    (sliceL l off len).length = len := by
  unfold sliceL
  rw [List.length_take, List.length_drop]
  omega

lemma slice?_some (l : List Nat) (a b : Nat) (h1 : a ≤ b) (h2 : b ≤ l.length) :
    slice? l a b = some (sliceL l a (b - a)) := by
  unfold slice? sliceL
  rw [if_pos ⟨h1, h2⟩]

lemma slice?_none (l : List Nat) (a b : Nat) (h : ¬ (a ≤ b ∧ b ≤ l.length)) :
    slice? l a b = none := by
  unfold slice?
  rw [if_neg h]

lemma writeBytes_length (l repl : List Nat) (off : Nat)
    (h : off + repl.length ≤ l.length) :
    (writeBytes l off repl).length = l.length := by
  unfold writeBytes
  rw [List.length_append, List.length_append, List.length_take, List.length_drop]
  omega

lemma writeBytes_getElem? (l repl : List Nat) (off j : Nat)
    (h : off + repl.length ≤ l.length) :
    (writeBytes l off repl)[j]? =
      if j < off then l[j]?
      else if j < off + repl.length then repl[j - off]?
      else l[j]? := by
  unfold writeBytes
  have hofflen : (l.take off).length = off := by rw [List.length_take]; omega
  have hbothlen : (l.take off ++ repl).length = off + repl.length := by
    rw [List.length_append, hofflen]
  by_cases h2 : j < off + repl.length
  · rw [List.getElem?_append_left (by omega : j < (l.take off ++ repl).length)]
    by_cases h1 : j < off
    · rw [List.getElem?_append_left (by omega : j < (l.take off).length),
        List.getElem?_take_of_lt h1, if_pos h1]
    · rw [List.getElem?_append_right (by omega : (l.take off).length ≤ j), hofflen,
        if_neg h1, if_pos h2]
  · rw [List.getElem?_append_right (by omega : (l.take off ++ repl).length ≤ j),
      hbothlen, List.getElem?_drop, if_neg (by omega), if_neg h2]
    congr 1
    omega

lemma sliceL_writeBytes_self (l repl : List Nat) (off : Nat)
    (h : off + repl.length ≤ l.length) :
    sliceL (writeBytes l off repl) off repl.length = repl := by
  apply List.ext_getElem?
  intro j
  rw [sliceL_getElem?]
  by_cases hj : j < repl.length
  · rw [if_pos hj, writeBytes_getElem? _ _ _ _ h, if_neg (by omega), if_pos (by omega)]
    congr 1
    omega
  · rw [if_neg hj, eq_comm]
    apply List.getElem?_eq_none
    omega

lemma sliceL_writeBytes_disjoint (l repl : List Nat) (off a n : Nat)
    (h : off + repl.length ≤ l.length)
    (hd : a + n ≤ off ∨ off + repl.length ≤ a) :
    sliceL (writeBytes l off repl) a n = sliceL l a n := by
  apply List.ext_getElem?
  intro j
  rw [sliceL_getElem?, sliceL_getElem?]
  by_cases hj : j < n
  · rw [if_pos hj, if_pos hj, writeBytes_getElem? _ _ _ _ h]
    rcases hd with hd | hd
    · rw [if_pos (by omega)]
    · rw [if_neg (by omega), if_neg (by omega)]
  · rw [if_neg hj, if_neg hj]

lemma getElem?_writeBytes_outside (l repl : List Nat) (off j : Nat)
    (h : off + repl.length ≤ l.length)
    (hj : j < off ∨ off + repl.length ≤ j) :
    (writeBytes l off repl)[j]? = l[j]? := by
  rw [writeBytes_getElem? _ _ _ _ h]
  rcases hj with hj | hj
  · rw [if_pos hj]
  · rw [if_neg (by omega), if_neg (by omega)]

lemma getElem?_some_getD {α : Type} (l : List α) (d : α) (n : Nat)
    (h : n < l.length) : l[n]? = some (l.getD n d) := by
  rw [List.getD_eq_getElem l d h, List.getElem?_eq_getElem h]

lemma getElem?_eq_of_sliceL_one (l l' : List Nat) (j : Nat)
    (h : sliceL l j 1 = sliceL l' j 1) : l[j]? = l'[j]? := by
  have h0 := congrArg (fun t => t[0]?) h
  simpa [sliceL_getElem?] using h0

lemma take_add_sliceL (l : List Nat) (a t : Nat) :
    l.take (a + t) = l.take a ++ sliceL l a t := by
  unfold sliceL
  conv_lhs => rw [← List.take_append_drop a (l.take (a + t))]
  congr 1
  · rw [List.take_take]
    congr 1
    omega
  · rw [List.drop_take]
    congr 1
    omega

lemma sliceL_take (l : List Nat) (a m t : Nat) :
    (sliceL l a m).take t = sliceL l a (min t m) := by
  unfold sliceL
  rw [List.take_take]

/-! ## Little-endian length prefix -/

lemma le64_length (n : Nat) : (le64 n).length = 8 := by
  unfold le64
  rw [List.length_map, List.length_range]

lemma le64_expand (n : Nat) :
    le64 n = [n % 256, n / 256 % 256, n / 256 ^ 2 % 256, n / 256 ^ 3 % 256,
      n / 256 ^ 4 % 256, n / 256 ^ 5 % 256, n / 256 ^ 6 % 256, n / 256 ^ 7 % 256] := by
  have h8 : List.range 8 = [0, 1, 2, 3, 4, 5, 6, 7] := by decide
  unfold le64
  rw [h8]
  norm_num

lemma leToNat_le64 (n : Nat) (h : n < 2 ^ 64) : leToNat (le64 n) = n := by
  rw [le64_expand]
  unfold leToNat
  simp only [List.foldr_cons, List.foldr_nil]
  norm_num
  omega

lemma psum_zero (sizes : List Nat) : psum sizes 0 = 0 := rfl

lemma psum_succ (sizes : List Nat) (k : Nat) (h : k < sizes.length) :
    psum sizes (k + 1) = psum sizes k + sizes.getD k 0 := by
  unfold psum
  rw [List.take_succ, List.sum_append, getElem?_some_getD sizes 0 k h]
  rfl

lemma psum_le_sum (sizes : List Nat) (k : Nat) : psum sizes k ≤ sizes.sum := by
  unfold psum
  rw [← List.sum_take_add_sum_drop sizes k]
  omega

lemma psum_of_length_le (sizes : List Nat) (k : Nat) (h : sizes.length ≤ k) :
    psum sizes k = sizes.sum := by
  unfold psum
  rw [List.take_of_length_le h]

/-! ## Behaviour of `derive_key_from_section` on a well-formed image -/

lemma derive_key_eq (env : Env) (data : List Nat) (tab : SecTab) (name : String)
    (off sz keyLen : Nat) (hfind : find_section tab name = .ok (off, sz))
    (hinb : off + sz ≤ data.length) :
    derive_key_from_section env data tab name keyLen =
      .ok ((env.sha (sliceL data off sz)).take (min keyLen 32)) := by
  induction tab with
  | nil => simp [find_section] at hfind
  | cons entry rest ih =>
    obtain ⟨n, o, s⟩ := entry
    by_cases hn : n = name
    · simp only [find_section, if_pos hn] at hfind
      rw [Except.ok.injEq, Prod.mk.injEq] at hfind
      obtain ⟨ho, hs⟩ := hfind
      simp only [derive_key_from_section, if_pos hn, ho, hs,
        slice?_some data off (off + sz) (by omega) (by omega)]
      have hsz : off + sz - off = sz := by omega
      rw [hsz]
    · simp only [find_section, if_neg hn] at hfind
      simp only [derive_key_from_section, if_neg hn]
      exact ih hfind

/-- Specification of the encryption loop of `update_bytes`: started at shard
`k` on an image whose `.text` bytes are `tb`, it succeeds, preserves the
image length and the `.text` bytes, rewrites exactly the remaining slot
regions with the shard ciphertexts, and leaves every region disjoint from
those slots untouched. -/
lemma updateShards_spec (env : Env) (tab : SecTab) (md : KeyMetadata)
    (padded : List Nat) (dataLen textOff textSz metaOff metaSz : Nat)
    (slotOff slotSz : Nat → Nat)
    (lay : GoodLayout env tab md dataLen textOff textSz metaOff metaSz slotOff slotSz)
    (hpadlen : padded.length = md.total_capacity) (tb : List Nat) :
    ∀ (rest : List Nat) (k : Nat) (cur : List Nat),
      md.shard_sizes.drop k = rest →
      cur.length = dataLen →
      sliceL cur textOff textSz = tb →
      ∃ out,
        updateShards env tab md padded k (psum md.shard_sizes k) cur rest = .ok out ∧
        out.length = dataLen ∧
        sliceL out textOff textSz = tb ∧
        (∀ a n, (∀ j, k ≤ j → j < md.shard_sizes.length →
            a + n ≤ slotOff j ∨ slotOff j + md.shard_sizes.getD j 0 ≤ a) →
          sliceL out a n = sliceL cur a n) ∧
        (∀ j, k ≤ j → j < md.shard_sizes.length →
          sliceL out (slotOff j) (md.shard_sizes.getD j 0) =
            shardCipher env md padded tb j) := by
  intro rest
  induction rest with
  | nil =>
    intro k cur hdrop hlen htext
    have hk : md.shard_sizes.length ≤ k := by
      by_contra hk
      have := congrArg List.length hdrop
      rw [List.length_drop] at this
      simp at this
      omega
    refine ⟨cur, rfl, hlen, htext, fun a n _ => rfl, ?_⟩
    intro j hj1 hj2
    omega
  | cons sz rest' ih =>
    intro k cur hdrop hlen htext
    have hk : k < md.shard_sizes.length := by
      by_contra hk
      rw [List.drop_eq_nil_of_le (by omega)] at hdrop
      cases hdrop
    have hcons := List.drop_eq_getElem_cons hk
    rw [hdrop] at hcons
    have hgd : md.shard_sizes.getD k 0 = sz := by
      rw [List.getD_eq_getElem md.shard_sizes 0 hk]
      injection hcons with h1 h2
      exact h1.symm
    have hdrop' : md.shard_sizes.drop (k + 1) = rest' := by
      injection hcons with h1 h2
      exact h2.symm
    have hpsum : psum md.shard_sizes k + sz ≤ padded.length := by
      have := psum_le_sum md.shard_sizes (k + 1)
      rw [psum_succ _ _ hk, hgd] at this
      rw [hpadlen]
      exact this
    have hname : md.shard_names[k]? = some (md.shard_names.getD k "") :=
      getElem?_some_getD _ "" k (by rw [lay.names_len]; exact hk)
    have hfind := lay.slot_find k hk
    have hsz_le : sz ≤ slotSz k := by rw [← hgd]; exact lay.slot_size k hk
    have hinb : slotOff k + sz ≤ dataLen := by rw [← hgd]; exact lay.slot_inb k hk
    have hderive := derive_key_eq env cur tab ".text" textOff textSz sz
      lay.text_find (by have := lay.text_inb; omega)
    -- the encrypted shard and its length
    have hchunklen : ((padded.drop (psum md.shard_sizes k)).take sz).length = sz := by
      rw [List.length_take, List.length_drop]
      omega
    set enc := encrypt_shard env.consts ((padded.drop (psum md.shard_sizes k)).take sz)
      (shardKey env tb sz) (shardSeed env k) with henc
    have henclen : enc.length = sz := by
      rw [henc, encrypt_shard_length, hchunklen]
    have hwb_inb : slotOff k + enc.length ≤ cur.length := by
      rw [henclen, hlen]
      exact hinb
    -- one step of the loop
    have hstep : updateShards env tab md padded k (psum md.shard_sizes k) cur
        (sz :: rest') =
        updateShards env tab md padded (k + 1) (psum md.shard_sizes k + sz)
          (writeBytes cur (slotOff k) enc) rest' := by
      simp only [updateShards, if_pos hpsum, hname, hfind, if_neg (by omega : ¬ slotSz k < sz),
        hderive, htext, if_pos (show slotOff k + sz ≤ cur.length by omega)]
      rfl
    -- the recursive call
    have hcur'len : (writeBytes cur (slotOff k) enc).length = dataLen := by
      rw [writeBytes_length _ _ _ hwb_inb, hlen]
    have hcur'text : sliceL (writeBytes cur (slotOff k) enc) textOff textSz = tb := by
      rw [sliceL_writeBytes_disjoint _ _ _ _ _ hwb_inb, htext]
      rw [henclen]
      rcases lay.slot_text k hk with h | h
      · right; omega
      · left; omega
    obtain ⟨out, hout, houtlen, houttext, houtframe, houtcipher⟩ :=
      ih (k + 1) (writeBytes cur (slotOff k) enc) hdrop' hcur'len hcur'text
    rw [psum_succ _ _ hk, hgd] at hout
    refine ⟨out, ?_, houtlen, houttext, ?_, ?_⟩
    · rw [hstep]
      exact hout
    · -- frame: regions disjoint from all slots `j ≥ k` are untouched
      intro a n hdisj
      rw [houtframe a n (fun j hj1 hj2 => hdisj j (by omega) hj2),
        sliceL_writeBytes_disjoint _ _ _ _ _ hwb_inb
          (by rw [henclen]; have hdk := hdisj k (le_refl k) hk; omega)]
    · -- every slot `j ≥ k` now holds its ciphertext
      intro j hj1 hj2
      rcases Nat.lt_or_ge k j with hkj | hkj
      · exact houtcipher j (by omega) hj2
      · have hjk : j = k := by omega
        subst hjk
        rw [houtframe (slotOff j) (md.shard_sizes.getD j 0)
          (fun j' hj'1 hj'2 => lay.slot_disj j hj2 j' hj'2 (by omega)),
          hgd, ← henclen, sliceL_writeBytes_self _ _ _ hwb_inb, henc]
        unfold shardCipher
        rw [hgd]
        rfl

/-! ## The decryption loop of `read_bytes` -/

/-- One unfolding step of the `read_bytes` loop when bytes are still
needed and the slot is found, large enough and in bounds. -/
lemma readShards_cons_eq (env : Env) (tab : SecTab) (md : KeyMetadata)
    (data : List Nat) (k needed : Nat) (acc : List Nat) (sz : Nat)
    (rest' : List Nat) (hneed : ¬ needed = 0)
    (nm : String) (hname : md.shard_names[k]? = some nm)
    (soff ssz : Nat) (hfind : find_section tab nm = .ok (soff, ssz))
    (hsz : ¬ ssz < sz) (hinb : soff + sz ≤ data.length)
    (key : List Nat)
    (hderive : derive_key_from_section env data tab ".text" sz = .ok key) :
    readShards env tab md data k needed acc (sz :: rest') =
      readShards env tab md data (k + 1)
        (needed - min needed
          (decrypt_shard env.consts (sliceL data soff sz) key
            (add8 (env.consts.seedOffsets (k % 8)) (k % 256))).length)
        (acc ++ (decrypt_shard env.consts (sliceL data soff sz) key
            (add8 (env.consts.seedOffsets (k % 8)) (k % 256))).take
          (min needed
            (decrypt_shard env.consts (sliceL data soff sz) key
              (add8 (env.consts.seedOffsets (k % 8)) (k % 256))).length))
        rest' := by
  have hslice : slice? data soff (soff + sz) = some (sliceL data soff sz) := by
    have h3 : soff + sz - soff = sz := by omega
    rw [slice?_some data soff (soff + sz) (by omega) (by omega), h3]
  simp only [readShards, if_neg hneed, hname, hfind, if_neg hsz, hslice, hderive]

/-- The loop always succeeds on a well-formed image and returns exactly
`min needed (sum of the remaining shard sizes)` additional bytes. -/
lemma readShards_len (env : Env) (tab : SecTab) (md : KeyMetadata)
    (data : List Nat) (dataLen textOff textSz metaOff metaSz : Nat)
    (slotOff slotSz : Nat → Nat)
    (lay : GoodLayout env tab md dataLen textOff textSz metaOff metaSz slotOff slotSz)
    (hdlen : data.length = dataLen) :
    ∀ (rest : List Nat) (k : Nat), md.shard_sizes.drop k = rest →
      ∀ (needed : Nat) (acc : List Nat),
      ∃ out, readShards env tab md data k needed acc rest = .ok out ∧
        out.length = acc.length + min needed rest.sum := by
  intro rest
  induction rest with
  | nil =>
    intro k _ needed acc
    exact ⟨acc, rfl, by simp⟩
  | cons sz rest' ih =>
    intro k hdrop needed acc
    have hk : k < md.shard_sizes.length := by
      by_contra hk
      rw [List.drop_eq_nil_of_le (by omega)] at hdrop
      cases hdrop
    have hcons := List.drop_eq_getElem_cons hk
    rw [hdrop] at hcons
    have hgd : md.shard_sizes.getD k 0 = sz := by
      rw [List.getD_eq_getElem md.shard_sizes 0 hk]
      injection hcons with h1 h2
      exact h1.symm
    have hdrop' : md.shard_sizes.drop (k + 1) = rest' := by
      injection hcons with h1 h2
      exact h2.symm
    by_cases hneed : needed = 0
    · subst hneed
      refine ⟨acc, ?_, by simp⟩
      simp [readShards]
    · have hname : md.shard_names[k]? = some (md.shard_names.getD k "") :=
        getElem?_some_getD _ "" k (by rw [lay.names_len]; exact hk)
      have hinb : slotOff k + sz ≤ data.length := by
        rw [hdlen, ← hgd]
        exact lay.slot_inb k hk
      have hderive := derive_key_eq env data tab ".text" textOff textSz sz
        lay.text_find (by have := lay.text_inb; omega)
      have hdeclen : (decrypt_shard env.consts (sliceL data (slotOff k) sz)
          ((env.sha (sliceL data textOff textSz)).take (min sz 32))
          (add8 (env.consts.seedOffsets (k % 8)) (k % 256))).length = sz := by
        rw [decrypt_shard_length, sliceL_length _ _ _ hinb]
      rw [readShards_cons_eq env tab md data k needed acc sz rest' hneed
        (md.shard_names.getD k "") hname (slotOff k) (slotSz k)
        (lay.slot_find k hk) (by have := lay.slot_size k hk; omega) hinb
        _ hderive]
      obtain ⟨out, hout, houtlen⟩ := ih (k + 1) hdrop'
        (needed - min needed (decrypt_shard env.consts (sliceL data (slotOff k) sz)
          ((env.sha (sliceL data textOff textSz)).take (min sz 32))
          (add8 (env.consts.seedOffsets (k % 8)) (k % 256))).length)
        (acc ++ (decrypt_shard env.consts (sliceL data (slotOff k) sz)
          ((env.sha (sliceL data textOff textSz)).take (min sz 32))
          (add8 (env.consts.seedOffsets (k % 8)) (k % 256))).take
          (min needed (decrypt_shard env.consts (sliceL data (slotOff k) sz)
            ((env.sha (sliceL data textOff textSz)).take (min sz 32))
            (add8 (env.consts.seedOffsets (k % 8)) (k % 256))).length))
      refine ⟨out, hout, ?_⟩
      rw [houtlen, List.length_append, List.length_take, hdeclen, List.sum_cons]
      omega

/-- On an image whose slots hold the ciphertexts written by the update loop,
the read loop reconstructs exactly the first `L` bytes of the padded
secret. -/
lemma readShards_spec (env : Env) (tab : SecTab) (md : KeyMetadata)
    (data padded tb : List Nat) (dataLen textOff textSz metaOff metaSz : Nat)
    (slotOff slotSz : Nat → Nat)
    (lay : GoodLayout env tab md dataLen textOff textSz metaOff metaSz slotOff slotSz)
    (hE : EnvOK env)
    (hdlen : data.length = dataLen)
    (htext : sliceL data textOff textSz = tb)
    (hcipher : ∀ j, j < md.shard_sizes.length →
      sliceL data (slotOff j) (md.shard_sizes.getD j 0) = shardCipher env md padded tb j)
    (hpadlen : padded.length = md.total_capacity)
    (hpadlt : ∀ b ∈ padded, b < 256)
    (L : Nat) (hL : L ≤ md.total_capacity) :
    ∀ (rest : List Nat) (k : Nat), md.shard_sizes.drop k = rest →
      ∀ (needed : Nat) (acc : List Nat),
      needed = L - min L (psum md.shard_sizes k) →
      acc = padded.take (min L (psum md.shard_sizes k)) →
      readShards env tab md data k needed acc rest = .ok (padded.take L) := by
  have hsum : md.shard_sizes.sum = md.total_capacity := rfl
  intro rest
  induction rest with
  | nil =>
    intro k hdrop needed acc hneed hacc
    have hk : md.shard_sizes.length ≤ k := by
      by_contra hk
      have := congrArg List.length hdrop
      rw [List.length_drop] at this
      simp at this
      omega
    have hpk : psum md.shard_sizes k = md.total_capacity := by
      rw [psum_of_length_le _ _ hk, hsum]
    rw [hacc, hpk, min_eq_left hL]
    rfl
  | cons sz rest' ih =>
    intro k hdrop needed acc hneed hacc
    have hk : k < md.shard_sizes.length := by
      by_contra hk
      rw [List.drop_eq_nil_of_le (by omega)] at hdrop
      cases hdrop
    have hcons := List.drop_eq_getElem_cons hk
    rw [hdrop] at hcons
    have hgd : md.shard_sizes.getD k 0 = sz := by
      rw [List.getD_eq_getElem md.shard_sizes 0 hk]
      injection hcons with h1 h2
      exact h1.symm
    have hdrop' : md.shard_sizes.drop (k + 1) = rest' := by
      injection hcons with h1 h2
      exact h2.symm
    have hpsk1 : psum md.shard_sizes (k + 1) = psum md.shard_sizes k + sz := by
      rw [psum_succ _ _ hk, hgd]
    have hchunk_inb : psum md.shard_sizes k + sz ≤ padded.length := by
      have := psum_le_sum md.shard_sizes (k + 1)
      rw [hpsk1] at this
      rw [hpadlen, ← hsum]
      exact this
    by_cases hneed0 : needed = 0
    · subst hneed0 hacc
      have hminL : min L (psum md.shard_sizes k) = L := by omega
      rw [hminL]
      simp [readShards]
    · -- bytes are still needed, so `psum k < L`
      have hpkL : psum md.shard_sizes k < L := by omega
      have hminpk : min L (psum md.shard_sizes k) = psum md.shard_sizes k := by omega
      have hname : md.shard_names[k]? = some (md.shard_names.getD k "") :=
        getElem?_some_getD _ "" k (by rw [lay.names_len]; exact hk)
      have hinb : slotOff k + sz ≤ data.length := by
        rw [hdlen, ← hgd]
        exact lay.slot_inb k hk
      have hderive := derive_key_eq env data tab ".text" textOff textSz sz
        lay.text_find (by have := lay.text_inb; omega)
      rw [readShards_cons_eq env tab md data k needed acc sz rest' hneed0
        (md.shard_names.getD k "") hname (slotOff k) (slotSz k)
        (lay.slot_find k hk) (by have := lay.slot_size k hk; omega) hinb
        _ hderive, htext]
      have hciph : sliceL data (slotOff k) sz = shardCipher env md padded tb k := by
        rw [← hgd]
        exact hcipher k hk
      rw [hciph]
      have hdec : decrypt_shard env.consts (shardCipher env md padded tb k)
          ((env.sha tb).take (min sz 32))
          (add8 (env.consts.seedOffsets (k % 8)) (k % 256)) =
          sliceL padded (psum md.shard_sizes k) sz := by
        unfold shardCipher shardKey shardSeed
        rw [hgd]
        exact decrypt_encrypt env.consts hE.constsOK _ _ _
          (fun b hb => hpadlt b (List.mem_of_mem_drop (List.mem_of_mem_take hb)))
      rw [hdec, sliceL_length _ _ _ hchunk_inb]
      have harg1 : needed - min needed sz = L - min L (psum md.shard_sizes (k + 1)) := by
        omega
      have harg2 : acc ++ (sliceL padded (psum md.shard_sizes k) sz).take (min needed sz)
          = padded.take (min L (psum md.shard_sizes (k + 1))) := by
        rw [hacc, hminpk, sliceL_take,
          min_eq_left (show min needed sz ≤ sz by omega),
          ← take_add_sliceL]
        congr 1
        omega
      rw [harg1, harg2]
      exact ih (k + 1) hdrop' _ _ rfl rfl

/-! ## Full specification of one `update_bytes` call -/

/-- On a handle whose metadata layout matches the image and a secret within
capacity, `update_bytes` succeeds; the produced image keeps its length and
its `.text` bytes, carries the little-endian secret length in the first 8
bytes of `.key_meta` and the shard ciphertexts in the slots, and leaves
every region disjoint from `.key_meta` and the slots unchanged.  When the
image was already initialized (its metadata parses), everything outside the
8-byte prefix and the slots — in particular the JSON body — is unchanged. -/
lemma update_bytes_spec (env : Env) (tab : SecTab) (md : KeyMetadata)
    (data : List Nat) (textOff textSz metaOff metaSz : Nat)
    (slotOff slotSz : Nat → Nat)
    (lay : GoodLayout env tab md data.length textOff textSz metaOff metaSz slotOff slotSz)
    (secret : List Nat) (hlen : secret.length ≤ md.total_capacity) :
    ∃ newData, update_bytes env tab md data secret = .ok newData ∧
      newData.length = data.length ∧
      sliceL newData textOff textSz = sliceL data textOff textSz ∧
      sliceL newData metaOff 8 = le64 secret.length ∧
      (∀ j, j < md.shard_sizes.length →
        sliceL newData (slotOff j) (md.shard_sizes.getD j 0) =
          shardCipher env md
            (secret ++ List.replicate (md.total_capacity - secret.length) 0)
            (sliceL data textOff textSz) j) ∧
      (∀ a n, (a + n ≤ metaOff ∨ metaOff + metaSz ≤ a) →
        (∀ j, j < md.shard_sizes.length →
          a + n ≤ slotOff j ∨ slotOff j + md.shard_sizes.getD j 0 ≤ a) →
        sliceL newData a n = sliceL data a n) ∧
      ((∃ m, read_metadata env tab data = .ok m) →
        ∀ a n, (a + n ≤ metaOff ∨ metaOff + 8 ≤ a) →
        (∀ j, j < md.shard_sizes.length →
          a + n ≤ slotOff j ∨ slotOff j + md.shard_sizes.getD j 0 ≤ a) →
        sliceL newData a n = sliceL data a n) := by
  have hcap : ¬ secret.length > md.total_capacity := by omega
  -- step 1: the metadata-initialization step
  obtain ⟨data1, hdata1, hlen1, hframe1, hiniteq⟩ :
      ∃ data1,
        (if (match read_metadata env tab data with
              | .ok _ => false | .error _ => true) then
            write_metadata_to_binary env tab md data
          else .ok data) = Except.ok data1 ∧
        data1.length = data.length ∧
        (∀ a n, (a + n ≤ metaOff + 8 ∨ metaOff + metaSz ≤ a) →
          sliceL data1 a n = sliceL data a n) ∧
        ((∃ m, read_metadata env tab data = .ok m) → data1 = data) := by
    cases hread : read_metadata env tab data with
    | ok m =>
      exact ⟨data, by simp, rfl, fun a n _ => rfl, fun _ => rfl⟩
    | error e =>
      have hjson_inb : metaOff + 8 + (env.toJson md).length ≤ data.length := by
        have h1 := lay.json_fits
        have h2 := lay.meta_inb
        omega
      refine ⟨writeBytes data (metaOff + 8) (env.toJson md), ?_, ?_, ?_, ?_⟩
      · simp only [if_pos]
        simp only [write_metadata_to_binary, lay.meta_find,
          if_neg (show ¬ (env.toJson md).length + 8 > metaSz by
            have := lay.json_fits; omega),
          if_pos hjson_inb]
      · rw [writeBytes_length _ _ _ (by omega)]
      · intro a n hd
        rw [sliceL_writeBytes_disjoint _ _ _ _ _ (by omega)]
        have := lay.json_fits
        omega
      · intro ⟨m, hm⟩
        cases hm
  have htext1 : sliceL data1 textOff textSz = sliceL data textOff textSz := by
    apply hframe1
    have h1 := lay.text_meta
    have h2 := lay.meta_min
    omega
  -- step 2: the encryption loop
  have hpadlen : (secret ++ List.replicate (md.total_capacity - secret.length) 0).length
      = md.total_capacity := by
    rw [List.length_append, List.length_replicate]
    omega
  obtain ⟨data2, hshards, hlen2, htext2, hframe2, hcipher2⟩ :=
    updateShards_spec env tab md
      (secret ++ List.replicate (md.total_capacity - secret.length) 0)
      data.length textOff textSz metaOff metaSz slotOff slotSz lay hpadlen
      (sliceL data textOff textSz) md.shard_sizes 0 data1 (List.drop_zero _)
      hlen1 htext1
  rw [psum_zero] at hshards
  -- step 3: the length-prefix write
  have hmeta_inb2 : metaOff + 8 ≤ data2.length := by
    have h1 := lay.meta_inb
    have h2 := lay.meta_min
    omega
  have hwb2 : metaOff + (le64 secret.length).length ≤ data2.length := by
    rw [le64_length]
    exact hmeta_inb2
  have hupd : update_bytes env tab md data secret =
      .ok (writeBytes data2 metaOff (le64 secret.length)) := by
    simp only [update_bytes, hdata1, if_neg hcap, hshards, lay.meta_find,
      if_pos hmeta_inb2]
  refine ⟨writeBytes data2 metaOff (le64 secret.length), hupd, ?_, ?_, ?_, ?_, ?_, ?_⟩
  · rw [writeBytes_length _ _ _ hwb2, hlen2]
  · rw [sliceL_writeBytes_disjoint _ _ _ _ _ hwb2
      (by rw [le64_length]
          have h1 := lay.text_meta
          have h2 := lay.meta_min
          omega)]
    exact htext2
  · have h8 : (8 : Nat) = (le64 secret.length).length := (le64_length _).symm
    rw [h8, sliceL_writeBytes_self _ _ _ hwb2]
  · intro j hj
    rw [sliceL_writeBytes_disjoint _ _ _ _ _ hwb2
      (by rw [le64_length]
          have h1 := lay.slot_meta j hj
          have h2 := lay.meta_min
          omega)]
    exact hcipher2 j (Nat.zero_le j) hj
  · intro a n hmeta hslots
    rw [sliceL_writeBytes_disjoint _ _ _ _ _ hwb2
      (by rw [le64_length]; have := lay.meta_min; omega),
      hframe2 a n (fun j _ hj => hslots j hj)]
    apply hframe1
    have := lay.meta_min
    omega
  · intro hini a n hmeta hslots
    rw [sliceL_writeBytes_disjoint _ _ _ _ _ hwb2
      (by rw [le64_length]; omega),
      hframe2 a n (fun j _ hj => hslots j hj), hiniteq hini]

/-! ## Reading back after an update -/

lemma read_after_update (env : Env) (tab : SecTab) (md : KeyMetadata)
    (data : List Nat) (textOff textSz metaOff metaSz : Nat)
    (slotOff slotSz : Nat → Nat)
    (lay : GoodLayout env tab md data.length textOff textSz metaOff metaSz slotOff slotSz)
    (hE : EnvOK env)
    (secret : List Nat) (hsec : ∀ b ∈ secret, b < 256)
    (hlen : secret.length ≤ md.total_capacity)
    (newData : List Nat)
    (hnlen : newData.length = data.length)
    (htext : sliceL newData textOff textSz = sliceL data textOff textSz)
    (hpre : sliceL newData metaOff 8 = le64 secret.length)
    (hcipher : ∀ j, j < md.shard_sizes.length →
      sliceL newData (slotOff j) (md.shard_sizes.getD j 0) =
        shardCipher env md
          (secret ++ List.replicate (md.total_capacity - secret.length) 0)
          (sliceL data textOff textSz) j) :
    read_bytes env tab md newData = .ok secret := by
  have hmeta8 : metaOff + 8 ≤ newData.length := by
    have h1 := lay.meta_inb
    have h2 := lay.meta_min
    omega
  have hheader : readLenHeader tab newData = .ok (le64 secret.length) := by
    have h8 : metaOff + 8 - metaOff = 8 := by omega
    simp only [readLenHeader, lay.meta_find,
      slice?_some newData metaOff (metaOff + 8) (by omega) hmeta8, h8, hpre]
  have hLval : leToNat (le64 secret.length) = secret.length :=
    leToNat_le64 _ (by have := lay.cap_bound; omega)
  by_cases hzero : secret.length = 0
  · have hnil : secret = [] := List.length_eq_zero.mp hzero
    subst hnil
    have hL0 : leToNat (le64 0) = 0 := leToNat_le64 0 (by norm_num)
    simp [read_bytes, hheader, hL0]
  · have hpadlen : (secret ++ List.replicate (md.total_capacity - secret.length) 0).length
        = md.total_capacity := by
      rw [List.length_append, List.length_replicate]
      omega
    have hpadlt : ∀ b ∈ secret ++ List.replicate (md.total_capacity - secret.length) 0,
        b < 256 := by
      intro b hb
      rcases List.mem_append.mp hb with hb | hb
      · exact hsec b hb
      · rw [List.eq_of_mem_replicate hb]
        omega
    have hloop := readShards_spec env tab md newData
      (secret ++ List.replicate (md.total_capacity - secret.length) 0)
      (sliceL data textOff textSz) data.length textOff textSz metaOff metaSz
      slotOff slotSz lay hE hnlen htext hcipher hpadlen hpadlt
      secret.length hlen md.shard_sizes 0 (List.drop_zero _)
      secret.length [] (by rw [psum_zero]; omega)
      (by rw [psum_zero]; simp)
    have htake : (secret ++ List.replicate (md.total_capacity - secret.length) 0).take
        secret.length = secret := List.take_left _ _
    rw [htake] at hloop
    simp only [read_bytes, hheader, hLval, if_neg hzero,
      if_neg (show ¬ secret.length > md.total_capacity by omega), hloop]

/-! # The claims -/

/-- Claim C1 — Engine-level round trip: for every environment meeting the
dependency guarantees, every `KeyStore` handle whose metadata layout matches
the on-disk image (`GoodLayout`: the named slot sections and `.text` exist
with in-bounds, non-overlapping file ranges, each slot at least its shard
size, `.key_meta` at least 8 bytes with room for the JSON body), and every
byte string `secret` with `secret.length ≤ capacity()`, `update_bytes`
succeeds and a subsequent `read_bytes` on the written image returns exactly
`secret`. -/
theorem engine_round_trip (env : Env) (tab : SecTab) (md : KeyMetadata)
    (data : List Nat) (textOff textSz metaOff metaSz : Nat)
    (slotOff slotSz : Nat → Nat)
    (lay : GoodLayout env tab md data.length textOff textSz metaOff metaSz slotOff slotSz)
    (hE : EnvOK env)
    (secret : List Nat) (hsec : ∀ b ∈ secret, b < 256)
    (hlen : secret.length ≤ KeyStore.capacity md) :
    ∃ newData, update_bytes env tab md data secret = .ok newData ∧
      read_bytes env tab md newData = .ok secret := by
  obtain ⟨newData, hupd, hnlen, htext, hpre, hcipher, _, _⟩ :=
    update_bytes_spec env tab md data textOff textSz metaOff metaSz
      slotOff slotSz lay secret hlen
  exact ⟨newData, hupd,
    read_after_update env tab md data textOff textSz metaOff metaSz
      slotOff slotSz lay hE secret hsec hlen newData hnlen htext hpre hcipher⟩

/-- Claim C2 — Obfuscation round trip: for every byte buffer `d` (any length,
indices wrap modulo 256 identically in both directions) and every seed byte
`s`, `deobfuscate (obfuscate d s) s = d`, for any constants satisfying the
build-time constraints (odd multiplier, rotation in `[1,7]`, inverse S-box
pair, extra rounds in `[1,3]`). -/
theorem obfuscation_round_trip (C : Consts) (hC : ConstsOK C) (d : List Nat)
    (s : Nat) (hd : ∀ b ∈ d, b < 256) (hs : s < 256) :
    deobfuscate C (obfuscate C d s) s = d :=
  deobf_obf C hC d s hd

/-- Claim C3 — Shard encryption round trip: for every byte buffer `d`, byte
key `k` (non-empty whenever `d` is non-empty, as the XOR cipher requires)
and seed byte `s`, `decrypt_shard (encrypt_shard d k s) k s = d`, and both
`encrypt_shard` and `decrypt_shard` preserve the input length. -/
theorem shard_encryption_round_trip (C : Consts) (hC : ConstsOK C)
    (d k : List Nat) (s : Nat) (hd : ∀ b ∈ d, b < 256) (hk : ∀ b ∈ k, b < 256)
    (hs : s < 256) (hne : d ≠ [] → k ≠ []) :
    decrypt_shard C (encrypt_shard C d k s) k s = d ∧
    (encrypt_shard C d k s).length = d.length ∧
    (decrypt_shard C d k s).length = d.length :=
  ⟨decrypt_encrypt C hC d k s hd, encrypt_shard_length C d k s,
    decrypt_shard_length C d k s⟩

/-- Claim C4 — Modular inverse correctness: for every odd byte `m`,
`(m * mod_inverse m) % 256 = 1`, and `mod_inverse m` is itself an odd
byte. -/
theorem mod_inverse_correctness (m : Nat) (hm : m < 256) (hodd : m % 2 = 1) :
    (m * mod_inverse m) % 256 = 1 ∧ mod_inverse m < 256 ∧
    mod_inverse m % 2 = 1 :=
  mod_inverse_correct m hm hodd

lemma constsTriv_ok : ConstsOK constsTriv := by
  refine ⟨by decide, by decide, by decide, by decide, by decide, by decide,
    by decide, by decide, ?_, ?_, ?_⟩
  · intro b hb
    exact hb
  · intro b _
    rfl
  · intro i
    show (0 : Nat) < 256
    decide

lemma envTriv_ok : EnvOK envTriv := by
  refine ⟨constsTriv_ok, fun l => List.length_replicate 32 0, ?_⟩
  intro l b hb
  rw [List.eq_of_mem_replicate hb]
  omega

lemma layW : GoodLayout envTriv tabW mdW dataW.length 0 4 8 12
    (fun _ => 4) (fun _ => 4) := by
  refine ⟨by decide, by decide, by decide, by decide, by decide, by decide,
    by decide, by decide, by decide, by decide, by decide, by decide,
    by decide, by decide, by decide⟩

theorem obfuscation_round_trip_witness :
    deobfuscate constsTriv (obfuscate constsTriv [5, 200, 7] 3) 3 = [5, 200, 7] :=
  obfuscation_round_trip constsTriv constsTriv_ok [5, 200, 7] 3 (by decide)
    (by decide)

theorem shard_encryption_round_trip_witness :
    decrypt_shard constsTriv
        (encrypt_shard constsTriv [9, 0, 255] [7, 8] 2) [7, 8] 2 = [9, 0, 255] ∧
      (encrypt_shard constsTriv [9, 0, 255] [7, 8] 2).length = 3 ∧
      (decrypt_shard constsTriv [9, 0, 255] [7, 8] 2).length = 3 :=
  shard_encryption_round_trip constsTriv constsTriv_ok [9, 0, 255] [7, 8] 2
    (by decide) (by decide) (by decide) (fun _ h => by cases h)

theorem mod_inverse_correctness_witness :
    (3 * mod_inverse 3) % 256 = 1 ∧ mod_inverse 3 < 256 ∧
    mod_inverse 3 % 2 = 1 :=
  mod_inverse_correctness 3 (by decide) (by decide)

theorem engine_round_trip_witness :
    ∃ newData, update_bytes envTriv tabW mdW dataW [1, 2, 3] = .ok newData ∧
      read_bytes envTriv tabW mdW newData = .ok [1, 2, 3] :=
  engine_round_trip envTriv tabW mdW dataW 0 4 8 12 (fun _ => 4) (fun _ => 4)
    layW envTriv_ok [1, 2, 3] (by decide) (by decide)

/-- Claim C5 — `read_bytes` result shape: on an image whose layout matches the
metadata, with `L` the little-endian value of the first 8 bytes of
`.key_meta`: if `L = 0` the result is the empty buffer; if
`L > total_capacity()` the call fails with the Config error; otherwise it
returns a buffer of length exactly `L`. -/
theorem read_bytes_shape (env : Env) (tab : SecTab) (md : KeyMetadata)
    (data : List Nat) (textOff textSz metaOff metaSz : Nat)
    (slotOff slotSz : Nat → Nat)
    (lay : GoodLayout env tab md data.length textOff textSz metaOff metaSz slotOff slotSz) :
    (leToNat (sliceL data metaOff 8) = 0 → read_bytes env tab md data = .ok []) ∧
    (leToNat (sliceL data metaOff 8) > md.total_capacity →
      read_bytes env tab md data = .error .configErr) ∧
    (¬ leToNat (sliceL data metaOff 8) = 0 →
      leToNat (sliceL data metaOff 8) ≤ md.total_capacity →
      ∃ out, read_bytes env tab md data = .ok out ∧
        out.length = leToNat (sliceL data metaOff 8)) := by
  have hmeta8 : metaOff + 8 ≤ data.length := by
    have h1 := lay.meta_inb
    have h2 := lay.meta_min
    omega
  have hheader : readLenHeader tab data = .ok (sliceL data metaOff 8) := by
    have h8 : metaOff + 8 - metaOff = 8 := by omega
    simp only [readLenHeader, lay.meta_find,
      slice?_some data metaOff (metaOff + 8) (by omega) hmeta8, h8]
  refine ⟨?_, ?_, ?_⟩
  · intro h0
    simp only [read_bytes, hheader, if_pos h0]
  · intro hover
    simp only [read_bytes, hheader,
      if_neg (show ¬ leToNat (sliceL data metaOff 8) = 0 by omega), if_pos hover]
  · intro h0 hle
    obtain ⟨out, hout, houtlen⟩ := readShards_len env tab md data data.length
      textOff textSz metaOff metaSz slotOff slotSz lay rfl md.shard_sizes 0
      (List.drop_zero _) (leToNat (sliceL data metaOff 8)) []
    refine ⟨out, ?_, ?_⟩
    · simp only [read_bytes, hheader, if_neg h0,
        if_neg (show ¬ leToNat (sliceL data metaOff 8) > md.total_capacity by omega),
        hout]
    · rw [houtlen]
      have hsum : md.shard_sizes.sum = md.total_capacity := rfl
      simp only [List.length_nil]
      omega

/-- Claim C6 — Capacity enforcement with atomicity: whenever the metadata
step succeeds (the image already parses, or the JSON splice succeeds), an
over-capacity secret makes `update_bytes` fail with the Config error, and —
because the only mutation of the original file is the final
temp-file-plus-rename step (`runUpdate`) — the on-disk image is unchanged
on this or any other failure. -/
theorem update_capacity_config (env : Env) (tab : SecTab) (md : KeyMetadata)
    (data secret : List Nat)
    (hinit : (∃ m, read_metadata env tab data = .ok m) ∨
      (∃ d1, write_metadata_to_binary env tab md data = .ok d1))
    (hover : secret.length > KeyStore.capacity md) :
    update_bytes env tab md data secret = .error .configErr ∧
    (∀ e, update_bytes env tab md data secret = .error e →
      runUpdate env tab md data secret = data) := by
  have hover' : secret.length > md.total_capacity := hover
  have hupd : update_bytes env tab md data secret = .error .configErr := by
    cases hread : read_metadata env tab data with
    | ok m => simp [update_bytes, hread, hover']
    | error e =>
      rcases hinit with ⟨m, hm⟩ | ⟨d1, hw⟩
      · rw [hread] at hm
        cases hm
      · simp [update_bytes, hread, hw, hover']
  refine ⟨hupd, ?_⟩
  intro e he
  unfold runUpdate
  rw [he]

/-- Claim C7 — Update frame property: on an initialized image (the metadata
JSON parses), a successful `update_bytes` changes only the first 8 bytes of
`.key_meta` and the bytes of the data slots named in the metadata; in
particular the JSON body of `.key_meta` and the `.text` bytes are identical
before and after. -/
theorem update_frame_property (env : Env) (tab : SecTab) (md : KeyMetadata)
    (data : List Nat) (textOff textSz metaOff metaSz : Nat)
    (slotOff slotSz : Nat → Nat)
    (lay : GoodLayout env tab md data.length textOff textSz metaOff metaSz slotOff slotSz)
    (m0 : KeyMetadata) (hinit : read_metadata env tab data = .ok m0)
    (secret : List Nat) (hlen : secret.length ≤ KeyStore.capacity md) :
    ∃ newData, update_bytes env tab md data secret = .ok newData ∧
      (∀ j, (j < metaOff ∨ metaOff + 8 ≤ j) →
        (∀ i, i < md.shard_sizes.length →
          j < slotOff i ∨ slotOff i + md.shard_sizes.getD i 0 ≤ j) →
        newData[j]? = data[j]?) ∧
      sliceL newData (metaOff + 8) (metaSz - 8) =
        sliceL data (metaOff + 8) (metaSz - 8) ∧
      sliceL newData textOff textSz = sliceL data textOff textSz := by
  obtain ⟨newData, hupd, hnlen, htext, hpre, hciph, hframe, hframeInit⟩ :=
    update_bytes_spec env tab md data textOff textSz metaOff metaSz
      slotOff slotSz lay secret hlen
  refine ⟨newData, hupd, ?_, ?_, htext⟩
  · intro j hj hslots
    apply getElem?_eq_of_sliceL_one
    apply hframeInit ⟨m0, hinit⟩
    · omega
    · intro i hi
      have := hslots i hi
      omega
  · apply hframeInit ⟨m0, hinit⟩
    · omega
    · intro i hi
      have h1 := lay.slot_meta i hi
      have h2 := lay.meta_min
      omega

/-- Claim C8 — Metadata generation postconditions: for every draw of the PRNG
(`numShards` from `gen_range(4..=8)`, `indices` a shuffle of `0..8`), the
generated record has `num_shards ∈ [4,8]`, `num_shards` pairwise-distinct
shard names drawn from the eight canonical slot names, `num_shards` copies
of `SHARD_SIZE` as sizes, version 1, and passes `validate()`. -/
theorem generate_postconditions (numShards : Nat) (indices : List Nat)
    (h4 : 4 ≤ numShards) (h8 : numShards ≤ 8)
    (hperm : indices.Perm (List.range 8)) :
    4 ≤ (KeyMetadata.generate numShards indices).num_shards ∧
    (KeyMetadata.generate numShards indices).num_shards ≤ 8 ∧
    (KeyMetadata.generate numShards indices).shard_names.length = numShards ∧
    (KeyMetadata.generate numShards indices).shard_names.Nodup ∧
    (∀ nm ∈ (KeyMetadata.generate numShards indices).shard_names,
      nm ∈ SHARD_NAMES) ∧
    (KeyMetadata.generate numShards indices).shard_sizes =
      List.replicate numShards SHARD_SIZE ∧
    (KeyMetadata.generate numShards indices).version = METADATA_VERSION ∧
    (KeyMetadata.generate numShards indices).validate = .ok () := by
  have hlen8 : indices.length = 8 := by
    rw [hperm.length_eq, List.length_range]
  have hmem8 : ∀ i ∈ indices, i < 8 := by
    intro i hi
    have := hperm.mem_iff.mp hi
    rwa [List.mem_range] at this
  have hnd : indices.Nodup := hperm.nodup_iff.mpr (List.nodup_range 8)
  have hinj8 : ∀ x, x < 8 → ∀ y, y < 8 →
      SHARD_NAMES.getD x "" = SHARD_NAMES.getD y "" → x = y := by decide
  have hcanon : ∀ i, i < 8 → SHARD_NAMES.getD i "" ∈ SHARD_NAMES := by decide
  have hnames_len : ((indices.take numShards).map
      (fun i => SHARD_NAMES.getD i "")).length = numShards := by
    rw [List.length_map, List.length_take]
    omega
  refine ⟨h4, h8, hnames_len, ?_, ?_, rfl, rfl, ?_⟩
  · -- distinct names
    apply List.Nodup.map_on
    · intro x hx y hy hxy
      exact hinj8 x (hmem8 x (List.mem_of_mem_take hx)) y
        (hmem8 y (List.mem_of_mem_take hy)) hxy
    · exact hnd.sublist (List.take_sublist _ _)
  · -- names drawn from the canonical eight
    intro nm hnm
    obtain ⟨i, hi, hival⟩ := List.mem_map.mp hnm
    rw [← hival]
    exact hcanon i (hmem8 i (List.mem_of_mem_take hi))
  · -- validate passes
    have hsizes_len : (List.replicate numShards SHARD_SIZE).length = numShards :=
      List.length_replicate _ _
    simp only [KeyMetadata.validate, KeyMetadata.generate, hsizes_len,
      hnames_len]
    rw [if_neg (by omega), if_neg (by omega), if_neg (by omega),
      if_neg (by omega)]

theorem read_bytes_shape_witness :
    (leToNat (sliceL dataW 8 8) = 0 → read_bytes envTriv tabW mdW dataW = .ok []) ∧
    (leToNat (sliceL dataW 8 8) > mdW.total_capacity →
      read_bytes envTriv tabW mdW dataW = .error .configErr) ∧
    (¬ leToNat (sliceL dataW 8 8) = 0 →
      leToNat (sliceL dataW 8 8) ≤ mdW.total_capacity →
      ∃ out, read_bytes envTriv tabW mdW dataW = .ok out ∧
        out.length = leToNat (sliceL dataW 8 8)) :=
  read_bytes_shape envTriv tabW mdW dataW 0 4 8 12 (fun _ => 4) (fun _ => 4)
    layW

theorem update_capacity_config_witness :
    update_bytes envTriv tabW mdW dataW [9, 9, 9, 9, 9] = .error .configErr ∧
    (∀ e, update_bytes envTriv tabW mdW dataW [9, 9, 9, 9, 9] = .error e →
      runUpdate envTriv tabW mdW dataW [9, 9, 9, 9, 9] = dataW) :=
  update_capacity_config envTriv tabW mdW dataW [9, 9, 9, 9, 9]
    (Or.inr ⟨writeBytes dataW (8 + 8) (envTriv.toJson mdW), by decide⟩)
    (by decide)

theorem generate_postconditions_witness :
    4 ≤ (KeyMetadata.generate 4 [0, 1, 2, 3, 4, 5, 6, 7]).num_shards ∧
    (KeyMetadata.generate 4 [0, 1, 2, 3, 4, 5, 6, 7]).num_shards ≤ 8 ∧
    (KeyMetadata.generate 4 [0, 1, 2, 3, 4, 5, 6, 7]).shard_names.length = 4 ∧
    (KeyMetadata.generate 4 [0, 1, 2, 3, 4, 5, 6, 7]).shard_names.Nodup ∧
    (∀ nm ∈ (KeyMetadata.generate 4 [0, 1, 2, 3, 4, 5, 6, 7]).shard_names,
      nm ∈ SHARD_NAMES) ∧
    (KeyMetadata.generate 4 [0, 1, 2, 3, 4, 5, 6, 7]).shard_sizes =
      List.replicate 4 SHARD_SIZE ∧
    (KeyMetadata.generate 4 [0, 1, 2, 3, 4, 5, 6, 7]).version = METADATA_VERSION ∧
    (KeyMetadata.generate 4 [0, 1, 2, 3, 4, 5, 6, 7]).validate = .ok () :=
  generate_postconditions 4 [0, 1, 2, 3, 4, 5, 6, 7] (by decide) (by decide)
    (by decide)

lemma layW2 : GoodLayout envW2 tabW mdW dataW2.length 0 4 8 12
    (fun _ => 4) (fun _ => 4) := by
  refine ⟨by decide, by decide, by decide, by decide, by decide, by decide,
    by decide, by decide, by decide, by decide, by decide, by decide,
    by decide, by decide, by decide⟩

theorem update_frame_property_witness :
    ∃ newData, update_bytes envW2 tabW mdW dataW2 [7] = .ok newData ∧
      (∀ j, (j < 8 ∨ 8 + 8 ≤ j) →
        (∀ i, i < mdW.shard_sizes.length →
          j < (fun _ => 4) i ∨ (fun _ => 4) i + mdW.shard_sizes.getD i 0 ≤ j) →
        newData[j]? = dataW2[j]?) ∧
      sliceL newData (8 + 8) (12 - 8) = sliceL dataW2 (8 + 8) (12 - 8) ∧
      sliceL newData 0 4 = sliceL dataW2 0 4 :=
  update_frame_property envW2 tabW mdW dataW2 0 4 8 12 (fun _ => 4)
    (fun _ => 4) layW2 mdW (by decide) [7] (by decide)

/-- Claim C9 counterexample — the claim fails for a handle whose metadata was
loaded from the image: `KeyStore::new` on an image whose `.key_meta`
carries the JSON of `mdBad` succeeds (`validate` only checks
`num_shards ∈ [1,8]` and the two sequence lengths), yet `capacity()`
returns 1 < 4096. -/
theorem capacity_counterexample :
    KeyStore.new envBad tabBad dataBad
        (KeyMetadata.generate 4 [0, 1, 2, 3, 4, 5, 6, 7]) = .ok mdBad ∧
      KeyStore.capacity mdBad = 1 ∧ ¬ 4096 ≤ KeyStore.capacity mdBad :=
  ⟨by decide, by decide, by decide⟩

/-- Claim C9 (amended) — Capacity bounds hold for every handle whose metadata
was freshly generated (`num_shards ∈ [4,8]`, all sizes `SHARD_SIZE`):
`capacity()` is then at least 4096 and at most 8192.  A handle whose
metadata was loaded from the image only passes `validate()`, which does not
constrain the shard sizes, so no such bounds hold on the loaded path. -/
theorem capacity_generated_bounds (numShards : Nat) (indices : List Nat)
    (h4 : 4 ≤ numShards) (h8 : numShards ≤ 8) :
    4096 ≤ KeyStore.capacity (KeyMetadata.generate numShards indices) ∧
    KeyStore.capacity (KeyMetadata.generate numShards indices) ≤ 8192 := by
  have hcap : KeyStore.capacity (KeyMetadata.generate numShards indices) =
      numShards * 1024 := by
    unfold KeyStore.capacity KeyMetadata.total_capacity KeyMetadata.generate
    simp [List.sum_replicate, smul_eq_mul, SHARD_SIZE]
  rw [hcap]
  omega

theorem capacity_generated_bounds_witness :
    4096 ≤ KeyStore.capacity (KeyMetadata.generate 4 [0, 1, 2, 3, 4, 5, 6, 7]) ∧
    KeyStore.capacity (KeyMetadata.generate 4 [0, 1, 2, 3, 4, 5, 6, 7]) ≤ 8192 :=
  capacity_generated_bounds 4 [0, 1, 2, 3, 4, 5, 6, 7] (by decide) (by decide)

/-- Claim C10 — `read_bytes` slices the 8 bytes at the `.key_meta` offset
without a size check: (1) the access is in bounds — and returns the 8
prefix bytes — for every image whose `.key_meta` file range has size at
least 8 and ends within the image; (2) on a concrete image whose
`.key_meta` range is 4 bytes at the end of the image, the slice is out of
bounds and `readLenHeader` — hence (3) `read_bytes` — panics; while
(4) `read_metadata` rejects any metadata section smaller than 8 bytes with
the Config error instead. -/
theorem len_prefix_bounds :
    (∀ (tab : SecTab) (data : List Nat) (metaOff metaSz : Nat),
      find_section tab ".key_meta" = .ok (metaOff, metaSz) → 8 ≤ metaSz →
      metaOff + metaSz ≤ data.length →
      readLenHeader tab data = .ok (sliceL data metaOff 8)) ∧
    readLenHeader tabShort dataShort = .error .panicked ∧
    (∀ (env : Env) (md : KeyMetadata),
      read_bytes env tabShort md dataShort = .error .panicked) ∧
    (∀ (env : Env) (tab : SecTab) (data : List Nat) (metaOff metaSz : Nat),
      find_section tab ".key_meta" = .ok (metaOff, metaSz) → metaSz < 8 →
      read_metadata env tab data = .error .configErr) := by
  refine ⟨?_, by decide, ?_, ?_⟩
  · intro tab data metaOff metaSz hfind h8 hinb
    have hco : metaOff + 8 - metaOff = 8 := by omega
    simp only [readLenHeader, hfind,
      slice?_some data metaOff (metaOff + 8) (by omega) (by omega), hco]
  · intro env md
    have hpref : readLenHeader tabShort dataShort = .error .panicked := by
      decide
    simp only [read_bytes, hpref]
  · intro env tab data metaOff metaSz hfind hsz
    simp only [read_metadata, hfind, if_pos hsz]

theorem len_prefix_bounds_witness :
    readLenHeader [(".key_meta", 0, 8)] (List.replicate 12 0) =
      .ok (sliceL (List.replicate 12 0) 0 8) :=
  len_prefix_bounds.1 [(".key_meta", 0, 8)] (List.replicate 12 0) 0 8
    (by decide) (by decide) (by decide)

end SelfCryptoKey

